import Mathlib

/-!
Verification of the composite-glyph normalization core of ufo2ft
(`Lib/ufo2ft/filters/flattenComponents.py` and
`Lib/ufo2ft/filters/propagateAnchors.py`), shallowly embedded in Lean.

Coordinates and transform coefficients are modelled as integers; the
glyph store (a Python dict from glyph name to glyph object, with glyphs
mutated in place) is modelled as a list of glyphs updated functionally,
looked up by name (first match), and the recursion of both passes is
given explicit fuel, with a dedicated error constructor for fuel
exhaustion so that it is never confused with the store's lookup error.
-/

/-- fontTools `Transform`: a 2D affine map given by six coefficients, in
fontTools' row-vector convention. -/
structure Transform where
  xx : Int
  xy : Int
  yx : Int
  yy : Int
  dx : Int
  dy : Int
deriving DecidableEq, Repr

/-- fontTools `Transform.transformPoint`:
`(x, y) -> (xx*x + yx*y + dx, xy*x + yy*y + dy)`. -/
def Transform.transformPoint (t : Transform) (p : Int × Int) : Int × Int :=
  (t.xx * p.1 + t.yx * p.2 + t.dx, t.xy * p.1 + t.yy * p.2 + t.dy)

/-- fontTools `Transform.transform`: `s.transform other` composes so that the
result applies `other` to a point first and `s` second (coefficient formulas
copied from fontTools.misc.transform with `xx1.. = other`, `xx2.. = s`). -/
def Transform.transform (s other : Transform) : Transform :=
  { xx := other.xx * s.xx + other.xy * s.yx
    xy := other.xx * s.xy + other.xy * s.yy
    yx := other.yx * s.xx + other.yy * s.yx
    yy := other.yx * s.xy + other.yy * s.yy
    dx := s.xx * other.dx + s.yx * other.dy + s.dx
    dy := s.xy * other.dx + s.yy * other.dy + s.dy }

/-- A named attachment point on a glyph. -/
structure Anchor where
  name : String
  x : Int
  y : Int
deriving DecidableEq, Repr

/-- A reference to a base glyph by name, plus a placement transform. -/
structure Component where
  baseGlyph : String
  transformation : Transform
deriving DecidableEq, Repr

/-- A glyph: a name, an ordered component list, an ordered anchor list. -/
structure Glyph where
  name : String
  components : List Component
  anchors : List Anchor
deriving DecidableEq, Repr

/-- The glyph store: glyph records addressed by name. -/
abbrev GlyphSet := List Glyph

/-- Name lookup in the glyph store (first glyph whose name matches). -/
def lookupGlyph : GlyphSet → String → Option Glyph
  | [], _ => none
  | g :: rest, n => if g.name = n then some g else lookupGlyph rest n

/-- Replace the (first) glyph named `n` by `g'` (in-place mutation of the
glyph object aliased in the store). -/
def setGlyph : GlyphSet → String → Glyph → GlyphSet
  | [], _, _ => []
  | g :: rest, n, g' => if g.name = n then g' :: rest else g :: setGlyph rest n g'

/-- Append anchors to the (first) glyph named `n` (models repeated
`appendAnchor` calls on the aliased glyph object). -/
def appendAnchors : GlyphSet → String → List Anchor → GlyphSet
  | [], _, _ => []
  | g :: rest, n, new =>
      if g.name = n then { g with anchors := g.anchors ++ new } :: rest
      else g :: appendAnchors rest n new

/-- Errors of both passes: the store's lookup error (Python `KeyError` from
`glyphSet[name]`), plus exhaustion of the embedding's explicit fuel. -/
inductive FilterErr where
  | missingGlyph : String → FilterErr
  | outOfFuel : FilterErr
deriving DecidableEq, Repr

/-- Inner loop of `_flattenComponent`: flatten each nested component with
`flattenOne`, compose the outer component's transform onto each resulting
pair exactly as the source does (`tr = tr.transform(component.transformation)`),
and splice the results in order. -/
def flattenList (flattenOne : Component → Except FilterErr (List (String × Transform)))
    (outer : Transform) : List Component → Except FilterErr (List (String × Transform))
  | [] => .ok []
  | nested :: rest => do
    let sub ← flattenOne nested
    let sub := sub.map (fun p => (p.1, Transform.transform p.2 outer))
    let restRes ← flattenList flattenOne outer rest
    .ok (sub ++ restRes)

/-- `_flattenComponent(glyphSet, component)`: returns the list of
`(baseGlyph, transform)` pairs of the fully nested expansion of `component`. -/
def _flattenComponent : Nat → GlyphSet → Component → Except FilterErr (List (String × Transform))
  | 0, _, _ => .error .outOfFuel
  | fuel + 1, glyphSet, component =>
    match lookupGlyph glyphSet component.baseGlyph with
    | none => .error (.missingGlyph component.baseGlyph)
    | some glyph =>
      if glyph.components.isEmpty then
        .ok [(component.baseGlyph, component.transformation)]
      else
        flattenList (_flattenComponent fuel glyphSet) component.transformation glyph.components

/-- Per-component body of `FlattenComponentsFilter.filter`: flatten each
component, record whether the first flattened tuple differs from the original
`(baseGlyph, transformation)` pair, and collect the replacement components. -/
def flattenGlyphComponents (glyphSet : GlyphSet) (fuel : Nat) :
    List Component → Except FilterErr (Bool × List Component)
  | [] => .ok (false, [])
  | comp :: rest => do
    let flattenedTuples ← _flattenComponent fuel glyphSet comp
    let changed := decide (flattenedTuples.head? ≠ some (comp.baseGlyph, comp.transformation))
    let (restChanged, restComps) ← flattenGlyphComponents glyphSet fuel rest
    .ok (changed || restChanged, flattenedTuples.map (fun p => Component.mk p.1 p.2) ++ restComps)

/-- `FlattenComponentsFilter.filter(glyph)`: returns whether the glyph was
flattened (and hence recorded in the modified set), together with the glyph
whose component list was replaced by the flattened one. -/
def FlattenComponentsFilter.filter (glyphSet : GlyphSet) (fuel : Nat) (glyph : Glyph) :
    Except FilterErr (Bool × Glyph) :=
  if glyph.components.isEmpty then .ok (false, glyph)
  else do
    let (flattened, comps) ← flattenGlyphComponents glyphSet fuel glyph.components
    .ok (flattened, { glyph with components := comps })

/-- One driver step of the flattening pass on the glyph named `name`: run the
filter on the store's glyph and write the mutated glyph back (the Python glyph
object is aliased inside the store). -/
def flattenGlyphPass (glyphSet : GlyphSet) (fuel : Nat) (name : String) :
    Except FilterErr (Bool × GlyphSet) :=
  match lookupGlyph glyphSet name with
  | none => .error (.missingGlyph name)
  | some glyph => do
    let (flattened, glyph') ← FlattenComponentsFilter.filter glyphSet fuel glyph
    .ok (flattened, setGlyph glyphSet name glyph')

/-- The identity transform (fontTools `Transform()`), for concrete inputs. -/
def idT : Transform := ⟨1, 0, 0, 1, 0, 0⟩

/-- Concrete scale-by-2 outer transform used for claim C1. -/
def tbScale : Transform := ⟨2, 0, 0, 2, 0, 0⟩

/-- Concrete translate-by-(5,0) inner transform used for claim C1. -/
def tcTranslate : Transform := ⟨1, 0, 0, 1, 5, 0⟩

/-- Concrete A→B(Tb)→C(Tc) store used for claim C1. -/
def gsC1 : GlyphSet :=
  [⟨"A", [⟨"B", tbScale⟩], []⟩,
   ⟨"B", [⟨"C", tcTranslate⟩], []⟩,
   ⟨"C", [], []⟩]


/-- The one-character string distinguishing mark anchors (leading underscore). -/
def underscoreStr : String := "_"

/-- Python `s.startswith(p)`: `p` is a prefix of `s` (on the character lists). -/
def strStartsWith (s p : String) : Bool := p.data.isPrefixOf s.data

/-- The `to_add` staging dict of `_propagate_glyph_anchors`: anchor name to
staged position, insertion-ordered with unique keys. -/
abbrev ToAdd := List (String × (Int × Int))

/-- Python dict assignment `d[k] = v`: overwrite in place if the key exists,
else append. -/
def dictInsert : ToAdd → String → Int × Int → ToAdd
  | [], k, v => [(k, v)]
  | (k0, v0) :: rest, k, v =>
      if k0 = k then (k, v) :: rest else (k0, v0) :: dictInsert rest k v

/-- Python `k in d` for the staging dict. -/
def dictMem (d : ToAdd) (k : String) : Bool := d.any (fun p => p.1 == k)

/-- First anchor with the given exact name (the source's `for`/`break` scan). -/
def findAnchor (anchors : List Anchor) (anchorName : String) : Option Anchor :=
  anchors.find? (fun a => a.name == anchorName)

/-- Loop of `_get_anchor_data`: for each component, look up its base glyph and
collect the first anchor matching `anchorName` (if any), in encounter order. -/
def collectAnchorPairs (glyphSet : GlyphSet) (anchorName : String) :
    List Component → Except FilterErr (List (Anchor × Component))
  | [] => .ok []
  | component :: rest =>
    match lookupGlyph glyphSet component.baseGlyph with
    | none => .error (.missingGlyph component.baseGlyph)
    | some glyph => do
      let restPairs ← collectAnchorPairs glyphSet anchorName rest
      match findAnchor glyph.anchors anchorName with
      | some anchor => .ok ((anchor, component) :: restPairs)
      | none => .ok restPairs

/-- Ligature fan-out of `_get_anchor_data`: stage `{name}_1`, `{name}_2`, … in
component encounter order, each position mapped through its own component's
transform (`i` starts at 1). -/
def fanOutAnchors : ToAdd → Nat → List (Anchor × Component) → ToAdd
  | anchorData, _, [] => anchorData
  | anchorData, i, (anchor, component) :: rest =>
      fanOutAnchors
        (dictInsert anchorData (anchor.name ++ "_" ++ toString i)
          (Transform.transformPoint component.transformation (anchor.x, anchor.y)))
        (i + 1) rest

/-- `_get_anchor_data(anchor_data, glyphSet, components, anchor_name)`. -/
def _get_anchor_data (anchorData : ToAdd) (glyphSet : GlyphSet)
    (components : List Component) (anchorName : String) : Except FilterErr ToAdd := do
  let anchors ← collectAnchorPairs glyphSet anchorName components
  if 1 < anchors.length then
    .ok (fanOutAnchors anchorData 1 anchors)
  else
    match anchors with
    | [(anchor, component)] =>
        .ok (dictInsert anchorData anchor.name
          (Transform.transformPoint component.transformation (anchor.x, anchor.y)))
    | _ => .ok anchorData

/-- Loop of `_adjust_anchors` over the mark glyph's anchors: move a staged
base anchor to the mark's same-named anchor position (through the mark
component's transform) when the mark glyph also has the `_`-prefixed twin. -/
def adjustAnchorLoop : ToAdd → Transform → List Anchor → List Anchor → ToAdd
  | anchorData, _, _, [] => anchorData
  | anchorData, t, allAnchors, anchor :: rest =>
      adjustAnchorLoop
        (if dictMem anchorData anchor.name &&
            allAnchors.any (fun a => a.name == underscoreStr ++ anchor.name) then
          dictInsert anchorData anchor.name
            (Transform.transformPoint t (anchor.x, anchor.y))
        else anchorData)
        t allAnchors rest

/-- `_adjust_anchors(anchor_data, glyphSet, component)`. -/
def _adjust_anchors (anchorData : ToAdd) (glyphSet : GlyphSet) (component : Component) :
    Except FilterErr ToAdd :=
  match lookupGlyph glyphSet component.baseGlyph with
  | none => .error (.missingGlyph component.baseGlyph)
  | some glyph =>
      .ok (adjustAnchorLoop anchorData component.transformation glyph.anchors glyph.anchors)

/-- The mark-component loop of `_propagate_glyph_anchors`. -/
def adjustAll (glyphSet : GlyphSet) : ToAdd → List Component → Except FilterErr ToAdd
  | anchorData, [] => .ok anchorData
  | anchorData, component :: rest => do
    let anchorData ← _adjust_anchors anchorData glyphSet component
    adjustAll glyphSet anchorData rest

/-- The candidate-name loop of `_propagate_glyph_anchors`: a candidate is
skipped when the composite already has an anchor whose name starts with it
(exact or ligature-suffixed match), otherwise `_get_anchor_data` stages it. -/
def stageAnchorNames (glyphSet : GlyphSet) (baseComponents : List Component)
    (compositeAnchors : List Anchor) : ToAdd → List String → Except FilterErr ToAdd
  | anchorData, [] => .ok anchorData
  | anchorData, anchorName :: rest => do
    let anchorData ←
      if compositeAnchors.any (fun a => strStartsWith a.name anchorName) then
        .ok anchorData
      else
        _get_anchor_data anchorData glyphSet baseComponents anchorName
    stageAnchorNames glyphSet baseComponents compositeAnchors anchorData rest

/-- Add one name to the collected anchor-name set (Python set union),
keeping first-encounter order. -/
def insertAnchorName (names : List String) (n : String) : List String :=
  if names.contains n then names else names ++ [n]

/-- `anchor_names |= {a.name for a in glyph.anchors}`. -/
def insertAnchorNames : List String → List String → List String
  | names, [] => names
  | names, n :: rest => insertAnchorNames (insertAnchorName names n) rest

/-- Mutable state of one propagation run: the shared glyph store plus the
per-run processed set. -/
structure PState where
  store : GlyphSet
  processed : List String
deriving DecidableEq, Repr

/-- Lexicographic strictly-less on character lists by code point (Python's
string ordering). -/
def charsLt : List Char → List Char → Bool
  | [], [] => false
  | [], _ :: _ => true
  | _ :: _, [] => false
  | a :: as, b :: bs =>
      if a.val < b.val then true
      else if b.val < a.val then false
      else charsLt as bs

/-- Python `s < t` on strings, by code point. -/
def strLt (s t : String) : Bool := charsLt s.data t.data

/-- Insert a staged anchor into a name-sorted list (Python `sorted` on the
`(name, (x, y))` items; keys are unique so name order decides). -/
def insertSortedAnchor (p : String × (Int × Int)) : ToAdd → ToAdd
  | [] => [p]
  | q :: rest => if strLt p.1 q.1 then p :: q :: rest else q :: insertSortedAnchor p rest

/-- Sort the staged anchors by name for deterministic append order. -/
def sortToAdd : ToAdd → ToAdd
  | [] => []
  | p :: rest => insertSortedAnchor p (sortToAdd rest)

/-- The component loop of `_propagate_glyph_anchors`: recursively propagate
into each component's base glyph first, then classify the component as mark
(its — possibly just mutated — base glyph has a `_`-prefixed anchor) or base,
collecting base components' anchor names. The base glyph is looked up again
after the recursive call because the Python `glyph` object is aliased in the
store and the recursion appends to its anchor list in place. -/
def propagateComponentLoop (propagate : PState → String → Except FilterErr PState) :
    PState → List Component → List Component → List Component → List String →
    Except FilterErr (PState × List Component × List Component × List String)
  | st, [], baseComponents, markComponents, anchorNames =>
      .ok (st, baseComponents, markComponents, anchorNames)
  | st, component :: rest, baseComponents, markComponents, anchorNames =>
    match lookupGlyph st.store component.baseGlyph with
    | none => .error (.missingGlyph component.baseGlyph)
    | some _ => do
      let stA ← propagate st component.baseGlyph
      match lookupGlyph stA.store component.baseGlyph with
      | none => .error (.missingGlyph component.baseGlyph)
      | some glyph =>
        if glyph.anchors.any (fun a => strStartsWith a.name underscoreStr) then
          propagateComponentLoop propagate stA rest baseComponents
            (markComponents ++ [component]) anchorNames
        else
          propagateComponentLoop propagate stA rest (baseComponents ++ [component])
            markComponents
            (insertAnchorNames anchorNames (glyph.anchors.map (fun a => a.name)))

/-- `_propagate_glyph_anchors(glyphSet, composite, processed)`: propagate
anchors from base glyphs to the composite glyph named `name`, and to all
composite glyphs used in between; returns the new store and processed set. -/
def _propagate_glyph_anchors : Nat → PState → String → Except FilterErr PState
  | fuel, st, name =>
    if st.processed.contains name then .ok st
    else
      match fuel with
      | 0 => .error .outOfFuel
      | fuel + 1 =>
        let st1 : PState := { st with processed := name :: st.processed }
        match lookupGlyph st1.store name with
        | none => .error (.missingGlyph name)
        | some composite =>
          if composite.components.isEmpty then .ok st1
          else do
            let (st2, baseComponents, markComponents, anchorNames) ←
              propagateComponentLoop (_propagate_glyph_anchors fuel) st1
                composite.components [] [] []
            match lookupGlyph st2.store name with
            | none => .error (.missingGlyph name)
            | some composite2 => do
              let anchorData ←
                stageAnchorNames st2.store baseComponents composite2.anchors [] anchorNames
              let anchorData ← adjustAll st2.store anchorData markComponents
              let newAnchors :=
                (sortToAdd anchorData).map (fun p => Anchor.mk p.1 p.2.1 p.2.2)
              .ok { st2 with store := appendAnchors st2.store name newAnchors }

/-- Anchors appended to a glyph clash with none of its pre-existing anchors:
no existing anchor's name starts with (in particular, equals) a new name. -/
def ClashFree (old new : List Anchor) : Prop :=
  ∀ b ∈ new, ∀ a ∈ old, strStartsWith a.name b.name = false

/-- Every anchor reachable through the store has a nonempty name. -/
def NonemptyNames (gs : GlyphSet) : Prop :=
  ∀ n g, lookupGlyph gs n = some g → ∀ a ∈ g.anchors, a.name ≠ ""

/-- Appended anchors are well-named: nonempty and not `_`-prefixed. -/
def GoodNewAnchors (new : List Anchor) : Prop :=
  ∀ b ∈ new, b.name ≠ "" ∧ strStartsWith b.name underscoreStr = false

/-- Everything one run of `_propagate_glyph_anchors` guarantees about how the
state evolves: the processed set grows; glyphs already processed on entry are
untouched; every stored glyph keeps its name and components and only gains
anchors, which clash with none of its pre-existing anchor names (and are
well-named when the starting store is); no glyph appears or disappears; and
every newly processed glyph exists and has all its component bases processed. -/
structure PropInv (st st' : PState) : Prop where
  procMono : ∀ m, m ∈ st.processed → m ∈ st'.processed
  procFrozen : ∀ m, m ∈ st.processed → lookupGlyph st'.store m = lookupGlyph st.store m
  extendsStore : ∀ n g, lookupGlyph st.store n = some g →
      ∃ extra, lookupGlyph st'.store n = some ⟨g.name, g.components, g.anchors ++ extra⟩ ∧
        ClashFree g.anchors extra ∧ (NonemptyNames st.store → GoodNewAnchors extra)
  noneStable : ∀ n, lookupGlyph st.store n = none → lookupGlyph st'.store n = none
  closed : ∀ m, m ∈ st'.processed → m ∉ st.processed →
      ∃ g, lookupGlyph st'.store m = some g ∧
        ∀ c ∈ g.components, c.baseGlyph ∈ st'.processed

/-- A dangling reference is reachable from the named glyph: the glyph itself is
absent from the store, or it has a component from whose base glyph a dangling
reference is reachable. -/
inductive ReachesMissing (gs : GlyphSet) : String → Prop
  | here {n : String} : lookupGlyph gs n = none → ReachesMissing gs n
  | step {n : String} {g : Glyph} {c : Component} :
      lookupGlyph gs n = some g → c ∈ g.components →
      ReachesMissing gs c.baseGlyph → ReachesMissing gs n

/-- Translate-by-(10,20) transform for the C2 composite's base component. -/
def txC2 : Transform := ⟨1, 0, 0, 1, 10, 20⟩

/-- Translate-by-(7,8) transform for the C2 composite's mark component. -/
def tmC2 : Transform := ⟨1, 0, 0, 1, 7, 8⟩

/-- C2 counterexample store: base glyph X with anchor `top`, mark glyph M with
anchors `_top` and `top2` (as the claim literally states), composite G. -/
def gsC2 : GlyphSet :=
  [⟨"X", [], [⟨"top", 100, 500⟩]⟩,
   ⟨"M", [], [⟨"_top", 0, 0⟩, ⟨"top2", 30, 600⟩]⟩,
   ⟨"G", [⟨"X", txC2⟩, ⟨"M", tmC2⟩], []⟩]

/-- Parameterized base glyph X with a single `top` anchor. -/
def glyphX (x1 y1 : Int) : Glyph := ⟨"X", [], [⟨"top", x1, y1⟩]⟩

/-- Parameterized mark glyph M with anchors `_top` and `top` (the name of its
second anchor exactly matching the staged base anchor). -/
def glyphM (x2 y2 x3 y3 : Int) : Glyph := ⟨"M", [], [⟨"_top", x2, y2⟩, ⟨"top", x3, y3⟩]⟩

/-- Parameterized composite glyph G with base component X and mark component M. -/
def glyphG (tX tM : Transform) : Glyph := ⟨"G", [⟨"X", tX⟩, ⟨"M", tM⟩], []⟩

/-- Parameterized ligature store for C3: two leaf bases that both define `top`,
and a composite referencing both. -/
def gsC3 (t1 t2 : Transform) (x1 y1 x2 y2 : Int) : GlyphSet :=
  [⟨"X1", [], [⟨"top", x1, y1⟩]⟩,
   ⟨"X2", [], [⟨"top", x2, y2⟩]⟩,
   ⟨"G", [⟨"X1", t1⟩, ⟨"X2", t2⟩], []⟩]

/-- C10 counterexample store: two leaf base glyphs each carrying an anchor
whose name is the empty string, and a composite referencing both. -/
def gsC10 : GlyphSet :=
  [⟨"E1", [], [⟨"", 0, 0⟩]⟩,
   ⟨"E2", [], [⟨"", 3, 4⟩]⟩,
   ⟨"G", [⟨"E1", idT⟩, ⟨"E2", idT⟩], []⟩]

/-- Witness store with a single leaf glyph and a composite referencing it. -/
def gsLeafW : GlyphSet := [⟨"L", [], []⟩, ⟨"A", [⟨"L", idT⟩], []⟩]

/-- Witness store for the no-overwrite guard: the composite already defines
`top` explicitly while its base component's glyph also defines `top`. -/
def gsC7W : GlyphSet :=
  [⟨"X", [], [⟨"top", 1, 2⟩]⟩,
   ⟨"G", [⟨"X", idT⟩], [⟨"top", 9, 9⟩]⟩]

/-- Witness store with a dangling component reference (glyph B is absent). -/
def gsC8W : GlyphSet := [⟨"A", [⟨"B", idT⟩], []⟩]

/-- C1: For glyph A containing component (B, Tb) where B contains exactly one
component (C, Tc) and C is a leaf, flattening A does replace A's component list
with exactly one component referencing C, but the transform the code produces is
`Tc.transform(Tb)` — the OUTER transform Tb applied to points first and the
inner Tc second — whereas the claim (and the spec's stated contract of
preserving the net visual transform) requires `Tb.compose(Tc)` with the inner
transform applied first. At Tb = scale(2), Tc = translate(5,0) the code yields
coefficients (2,0,0,2,5,0) while the claimed composite is (2,0,0,2,10,0), and
the two maps already disagree at the point (0,0). -/
theorem C1_code_behavior :
    FlattenComponentsFilter.filter gsC1 2 ⟨"A", [⟨"B", tbScale⟩], []⟩ =
      .ok (true, ⟨"A", [⟨"C", ⟨2, 0, 0, 2, 5, 0⟩⟩], []⟩) ∧
    Transform.transform tbScale tcTranslate = ⟨2, 0, 0, 2, 10, 0⟩ ∧
    Transform.transform tcTranslate tbScale = ⟨2, 0, 0, 2, 5, 0⟩ ∧
    Transform.transformPoint (⟨2, 0, 0, 2, 5, 0⟩ : Transform) (0, 0) = (5, 0) ∧
    Transform.transformPoint (⟨2, 0, 0, 2, 10, 0⟩ : Transform) (0, 0) = (10, 0) ∧
    (⟨2, 0, 0, 2, 5, 0⟩ : Transform) ≠ ⟨2, 0, 0, 2, 10, 0⟩ :=
  ⟨rfl, rfl, rfl, rfl, rfl, by decide⟩

/-- C2 counterexample: with base glyph X (anchor `top` at (100,500)), mark
glyph M (anchors `_top` and `top2` at (30,600)) and composite G referencing
X through translate(10,20) and M through translate(7,8) — exactly the claim's
setup — the propagated `top` anchor lands at (110,520), which is X's `top`
mapped through X's component transform, and NOT at M's `top2` mapped through
M's component transform (which would be (37,608)): `_adjust_anchors` only
relocates a staged anchor when the mark glyph has an anchor with the staged
name itself, and `top2` is not `top`. -/
theorem C2_counterexample :
    _propagate_glyph_anchors 2 ⟨gsC2, []⟩ "G" =
      .ok ⟨[⟨"X", [], [⟨"top", 100, 500⟩]⟩,
            ⟨"M", [], [⟨"_top", 0, 0⟩, ⟨"top2", 30, 600⟩]⟩,
            ⟨"G", [⟨"X", txC2⟩, ⟨"M", tmC2⟩], [⟨"top", 110, 520⟩]⟩],
           ["M", "X", "G"]⟩ ∧
    Transform.transformPoint txC2 (100, 500) = (110, 520) ∧
    Transform.transformPoint tmC2 (30, 600) = (37, 608) ∧
    ((110, 520) : Int × Int) ≠ (37, 608) :=
  ⟨rfl, rfl, rfl, by decide⟩

/-- C2 amended: if the mark glyph M defines anchors `_top` and `top` — the
second anchor's name exactly matching the staged base-anchor name, rather than
the claim's `top2` — then after propagation the composite's `top` anchor is M's
`top` anchor mapped through M's component transform, not X's original `top`
mapped through X's transform. -/
theorem C2_amended (tX tM : Transform) (x1 y1 x2 y2 x3 y3 : Int) :
    _propagate_glyph_anchors 2
      ⟨[glyphX x1 y1, glyphM x2 y2 x3 y3, glyphG tX tM], []⟩ "G" =
    .ok ⟨[glyphX x1 y1, glyphM x2 y2 x3 y3,
          ⟨"G", [⟨"X", tX⟩, ⟨"M", tM⟩],
            [⟨"top", (Transform.transformPoint tM (x3, y3)).1,
                     (Transform.transformPoint tM (x3, y3)).2⟩]⟩],
         ["M", "X", "G"]⟩ := by
  rfl

/-- C3: for a composite glyph with exactly two base components whose referenced
glyphs both define an anchor named `top`, and no own anchors (in particular none
whose name starts with `top`), propagation appends exactly the two anchors
`top_1` and `top_2`, numbered in component encounter order, each source anchor
mapped through its own component's transform — and, as the resulting anchor
list shows, no anchor named plain `top` is appended. -/
theorem C3_ligature_fanout (t1 t2 : Transform) (x1 y1 x2 y2 : Int) :
    _propagate_glyph_anchors 2 ⟨gsC3 t1 t2 x1 y1 x2 y2, []⟩ "G" =
    .ok ⟨[⟨"X1", [], [⟨"top", x1, y1⟩]⟩,
          ⟨"X2", [], [⟨"top", x2, y2⟩]⟩,
          ⟨"G", [⟨"X1", t1⟩, ⟨"X2", t2⟩],
            [⟨"top_1", (Transform.transformPoint t1 (x1, y1)).1,
                       (Transform.transformPoint t1 (x1, y1)).2⟩,
             ⟨"top_2", (Transform.transformPoint t2 (x2, y2)).1,
                       (Transform.transformPoint t2 (x2, y2)).2⟩]⟩],
         ["X2", "X1", "G"]⟩ := by
  rfl

/-- C10 counterexample: if two base components' glyphs each carry an anchor
whose name is the empty string (which is not `_`-prefixed, so both components
are classified as base components), ligature fan-out suffixes the empty name to
`_1` and `_2` — so propagateAnchors DOES append anchors whose names begin with
an underscore. -/
theorem C10_counterexample :
    _propagate_glyph_anchors 2 ⟨gsC10, []⟩ "G" =
      .ok ⟨[⟨"E1", [], [⟨"", 0, 0⟩]⟩,
            ⟨"E2", [], [⟨"", 3, 4⟩]⟩,
            ⟨"G", [⟨"E1", idT⟩, ⟨"E2", idT⟩], [⟨"_1", 0, 0⟩, ⟨"_2", 3, 4⟩]⟩],
           ["E2", "E1", "G"]⟩ ∧
    strStartsWith ("_1") underscoreStr = true ∧
    strStartsWith ("_2") underscoreStr = true :=
  ⟨by rfl, by decide, by decide⟩

/-- C6: calling `_propagate_glyph_anchors` on a glyph whose name is already in
the processed set returns immediately on the membership test with the state
unchanged — no glyph's anchors (indeed nothing in the store or the processed
set) are mutated by the second call. -/
theorem C6_memoized (fuel : Nat) (st : PState) (name : String)
    (h : st.processed.contains name = true) :
    _propagate_glyph_anchors fuel st name = .ok st := by
  rw [_propagate_glyph_anchors.eq_def]
  simp [h]
  intro hn
  exact absurd (by simpa using h) hn

/-- Witness for C6: a concrete second call on an already-processed glyph. -/
theorem C6_witness :
    (["G"].contains "G" = true) ∧
    _propagate_glyph_anchors 5 ⟨gsC10, ["G"]⟩ "G" = .ok ⟨gsC10, ["G"]⟩ :=
  ⟨by decide, C6_memoized 5 ⟨gsC10, ["G"]⟩ "G" (by decide)⟩

/-- A successful lookup returns a glyph carrying the queried name. -/
theorem lookupGlyph_name {gs : GlyphSet} {n : String} {g : Glyph} :
    lookupGlyph gs n = some g → g.name = n := by
  induction gs with
  | nil => intro h; simp [lookupGlyph] at h
  | cons g0 rest ih =>
    intro h
    by_cases hn : g0.name = n
    · rw [lookupGlyph, if_pos hn] at h
      injection h with h2
      subst h2; exact hn
    · rw [lookupGlyph, if_neg hn] at h
      exact ih h

/-- A successful lookup returns a member of the store. -/
theorem lookupGlyph_mem {gs : GlyphSet} {n : String} {g : Glyph} :
    lookupGlyph gs n = some g → g ∈ gs := by
  induction gs with
  | nil => intro h; simp [lookupGlyph] at h
  | cons g0 rest ih =>
    intro h
    by_cases hn : g0.name = n
    · rw [lookupGlyph, if_pos hn] at h
      injection h with h2
      subst h2; exact List.mem_cons_self _ _
    · rw [lookupGlyph, if_neg hn] at h
      exact List.mem_cons_of_mem _ (ih h)

/-- Appending anchors to the glyph named `n` updates exactly that lookup. -/
theorem lookup_appendAnchors_self {gs : GlyphSet} {n : String} {g : Glyph}
    (new : List Anchor) (h : lookupGlyph gs n = some g) :
    lookupGlyph (appendAnchors gs n new) n = some { g with anchors := g.anchors ++ new } := by
  induction gs with
  | nil => simp [lookupGlyph] at h
  | cons g0 rest ih =>
    by_cases hn : g0.name = n
    · rw [lookupGlyph, if_pos hn] at h
      injection h with h2
      subst h2
      rw [appendAnchors, if_pos hn, lookupGlyph, if_pos hn]
    · rw [lookupGlyph, if_neg hn] at h
      rw [appendAnchors, if_neg hn, lookupGlyph, if_neg hn]
      exact ih h

/-- Appending anchors to the glyph named `n` leaves other lookups unchanged. -/
theorem lookup_appendAnchors_ne {gs : GlyphSet} {m n : String} (new : List Anchor)
    (hmn : m ≠ n) : lookupGlyph (appendAnchors gs n new) m = lookupGlyph gs m := by
  induction gs with
  | nil => rfl
  | cons g0 rest ih =>
    by_cases hn : g0.name = n
    · rw [appendAnchors, if_pos hn, lookupGlyph, lookupGlyph,
        if_neg (by rw [hn]; exact fun h => hmn h.symm), if_neg (by rw [hn]; exact fun h => hmn h.symm)]
    · rw [appendAnchors, if_neg hn, lookupGlyph, lookupGlyph]
      by_cases hm : g0.name = m
      · rw [if_pos hm, if_pos hm]
      · rw [if_neg hm, if_neg hm]
        exact ih

/-- Appending anchors under an absent name is a no-op. -/
theorem appendAnchors_noop {gs : GlyphSet} {n : String} (new : List Anchor)
    (h : lookupGlyph gs n = none) : appendAnchors gs n new = gs := by
  induction gs with
  | nil => rfl
  | cons g0 rest ih =>
    by_cases hn : g0.name = n
    · rw [lookupGlyph, if_pos hn] at h
      cases h
    · rw [lookupGlyph, if_neg hn] at h
      rw [appendAnchors, if_neg hn, ih h]

/-- Appending anchors never makes an absent name present. -/
theorem lookup_appendAnchors_none {gs : GlyphSet} {m n : String} (new : List Anchor)
    (h : lookupGlyph gs m = none) : lookupGlyph (appendAnchors gs n new) m = none := by
  by_cases hmn : m = n
  · subst hmn
    rw [appendAnchors_noop new h]
    exact h
  · rw [lookup_appendAnchors_ne new hmn]
    exact h

/-- Writing back the glyph a lookup returned leaves the store unchanged. -/
theorem setGlyph_self_eq {gs : GlyphSet} {n : String} {g : Glyph}
    (h : lookupGlyph gs n = some g) : setGlyph gs n g = gs := by
  induction gs with
  | nil => rfl
  | cons g0 rest ih =>
    by_cases hn : g0.name = n
    · rw [lookupGlyph, if_pos hn] at h
      injection h with h2
      rw [setGlyph, if_pos hn, h2]
    · rw [lookupGlyph, if_neg hn] at h
      rw [setGlyph, if_neg hn, ih h]

/-- After writing glyph `g'` (named `n`) under `n`, looking up `n` finds it,
provided `n` was present. -/
theorem lookup_setGlyph_self {gs : GlyphSet} {n : String} {g g' : Glyph}
    (h : lookupGlyph gs n = some g) (hg' : g'.name = n) :
    lookupGlyph (setGlyph gs n g') n = some g' := by
  induction gs with
  | nil => simp [lookupGlyph] at h
  | cons g0 rest ih =>
    by_cases hn : g0.name = n
    · rw [setGlyph, if_pos hn, lookupGlyph, if_pos hg']
    · rw [lookupGlyph, if_neg hn] at h
      rw [setGlyph, if_neg hn, lookupGlyph, if_neg hn]
      exact ih h

/-- Writing a glyph named `n` under `n` leaves other lookups unchanged. -/
theorem lookup_setGlyph_ne {gs : GlyphSet} {m n : String} {g' : Glyph}
    (hg' : g'.name = n) (hmn : m ≠ n) :
    lookupGlyph (setGlyph gs n g') m = lookupGlyph gs m := by
  induction gs with
  | nil => rfl
  | cons g0 rest ih =>
    by_cases hn : g0.name = n
    · rw [setGlyph, if_pos hn, lookupGlyph, lookupGlyph,
        if_neg (by rw [hg']; exact fun h => hmn h.symm),
        if_neg (by rw [hn]; exact fun h => hmn h.symm)]
    · rw [setGlyph, if_neg hn, lookupGlyph, lookupGlyph]
      by_cases hm : g0.name = m
      · rw [if_pos hm, if_pos hm]
      · rw [if_neg hm, if_neg hm]
        exact ih

/-- Eliminate a successful `Except` bind into its two successful stages. -/
theorem exbind_ok {ε α β : Type} {x : Except ε α} {f : α → Except ε β} {b : β}
    (h : (x >>= f) = .ok b) : ∃ a, x = .ok a ∧ f a = .ok b := by
  cases x with
  | error e =>
    have h' : (Except.error e : Except ε β) = .ok b := h
    cases h'
  | ok a => exact ⟨a, rfl, h⟩

/-- Binding a successful `Except` value reduces to the continuation. -/
theorem ok_bind {ε α β : Type} (a : α) (f : α → Except ε β) :
    ((Except.ok a : Except ε α) >>= f) = f a := rfl

/-- Provenance of the entries produced by `flattenList`. -/
theorem flattenList_mem {f : Component → Except FilterErr (List (String × Transform))}
    {outer : Transform} :
    ∀ {comps : List Component} {out}, flattenList f outer comps = .ok out →
      ∀ p ∈ out, ∃ nested ∈ comps, ∃ sub, f nested = .ok sub ∧
        ∃ q ∈ sub, p = (q.1, Transform.transform q.2 outer) := by
  intro comps
  induction comps with
  | nil =>
    intro out h p hp
    rw [flattenList] at h
    injection h with h2
    subst h2
    cases hp
  | cons c rest ih =>
    intro out h p hp
    rw [flattenList] at h
    obtain ⟨sub, hsub, h2⟩ := exbind_ok h
    obtain ⟨restRes, hrest, h3⟩ := exbind_ok h2
    injection h3 with h4
    subst h4
    rcases List.mem_append.mp hp with hmap | hrestm
    · obtain ⟨q, hq, hpq⟩ := List.mem_map.mp hmap
      exact ⟨c, List.mem_cons_self _ _, sub, hsub, q, hq, hpq.symm⟩
    · obtain ⟨nested, hn, sub', hsub', q, hq, hpq⟩ := ih hrest p hrestm
      exact ⟨nested, List.mem_cons_of_mem _ hn, sub', hsub', q, hq, hpq⟩

/-- A component whose base glyph is a leaf flattens to itself. -/
theorem flattenComponent_leaf {gs : GlyphSet} {c : Component} {g : Glyph} (fuel : Nat)
    (h : lookupGlyph gs c.baseGlyph = some g) (hleaf : g.components = []) :
    _flattenComponent (fuel + 1) gs c = .ok [(c.baseGlyph, c.transformation)] := by
  rw [_flattenComponent, h]
  simp [hleaf]

/-- Every entry of a successful `_flattenComponent` result references a leaf
glyph of the store. -/
theorem flatten_mem_leaf : ∀ (fuel : Nat) {gs : GlyphSet} {c : Component} {out},
    _flattenComponent fuel gs c = .ok out →
    ∀ p ∈ out, ∃ g, lookupGlyph gs p.1 = some g ∧ g.components = [] := by
  intro fuel
  induction fuel with
  | zero => intro gs c out h; cases h
  | succ fuel ih =>
    intro gs c out h p hp
    rw [_flattenComponent] at h
    split at h
    next => cases h
    next g hl =>
      by_cases hg : g.components.isEmpty = true
      · rw [if_pos hg] at h
        injection h with h2
        subst h2
        have hps := List.mem_singleton.mp hp
        subst hps
        exact ⟨g, hl, List.isEmpty_iff.mp hg⟩
      · rw [if_neg hg] at h
        obtain ⟨nested, hn, sub, hsub, q, hq, hpq⟩ := flattenList_mem h p hp
        obtain ⟨g', hg', hleaf⟩ := ih hsub q hq
        subst hpq
        exact ⟨g', hg', hleaf⟩

/-- The source's per-component modification test (`flattened_tuples[0] !=
(comp.baseGlyph, comp.transformation)`) is equivalent to the flattened result
differing from the singleton original. -/
theorem flatten_changed_iff {gs : GlyphSet} {c : Component} {out} (fuel : Nat)
    (h : _flattenComponent fuel gs c = .ok out) :
    (out.head? ≠ some (c.baseGlyph, c.transformation)) ↔
      out ≠ [(c.baseGlyph, c.transformation)] := by
  constructor
  · intro h1 heq
    exact h1 (by rw [heq]; rfl)
  · intro hne hhead
    have hmem : ((c.baseGlyph, c.transformation) : String × Transform) ∈ out :=
      List.mem_of_mem_head? (by simp [hhead])
    obtain ⟨g', hg', hleaf⟩ := flatten_mem_leaf fuel h _ hmem
    cases fuel with
    | zero => cases h
    | succ fuel =>
      have h2 := flattenComponent_leaf fuel hg' hleaf
      rw [h] at h2
      injection h2 with h3
      exact hne h3

/-- The accumulated `flattened` flag of the filter loop is true iff some
component's flattened result differs from that component. -/
theorem flattenGlyphComponents_iff {gs : GlyphSet} {fuel : Nat} :
    ∀ {comps : List Component} {b out},
      flattenGlyphComponents gs fuel comps = .ok (b, out) →
      (b = true ↔ ∃ c ∈ comps,
        _flattenComponent fuel gs c ≠ .ok [(c.baseGlyph, c.transformation)]) := by
  intro comps
  induction comps with
  | nil =>
    intro b out h
    rw [flattenGlyphComponents] at h
    injection h with h2
    rw [Prod.mk.injEq] at h2
    obtain ⟨hb, -⟩ := h2
    subst hb
    simp
  | cons c rest ih =>
    intro b out h
    rw [flattenGlyphComponents] at h
    obtain ⟨tuples, htup, h2⟩ := exbind_ok h
    obtain ⟨pr, hrest, h3⟩ := exbind_ok h2
    obtain ⟨rc, rcs⟩ := pr
    injection h3 with h4
    rw [Prod.mk.injEq] at h4
    obtain ⟨hb, -⟩ := h4
    subst hb
    rw [Bool.or_eq_true, decide_eq_true_iff]
    rw [flatten_changed_iff fuel htup, ih hrest]
    constructor
    · rintro (h1 | h2)
      · refine ⟨c, List.mem_cons_self _ _, fun he => h1 ?_⟩
        rw [htup] at he
        exact Except.ok.inj he
      · obtain ⟨c', hc', hp⟩ := h2
        exact ⟨c', List.mem_cons_of_mem _ hc', hp⟩
    · rintro ⟨c', hc', hp⟩
      rcases List.mem_cons.mp hc' with h5 | h5
      · subst h5
        exact Or.inl fun he => hp (by rw [htup, he])
      · exact Or.inr ⟨c', h5, hp⟩

/-- C4: the filter returns true (recording the glyph as modified) iff some
component's flattened result differs from that original component — in
base-glyph identity or transform coefficients; for a glyph whose every
component already references a leaf with identical transform, it returns
false. -/
theorem C4_modified_iff {gs : GlyphSet} {fuel : Nat} {glyph glyph2 : Glyph} {b : Bool}
    (h : FlattenComponentsFilter.filter gs fuel glyph = .ok (b, glyph2)) :
    b = true ↔ ∃ c ∈ glyph.components,
      _flattenComponent fuel gs c ≠ .ok [(c.baseGlyph, c.transformation)] := by
  unfold FlattenComponentsFilter.filter at h
  by_cases hg : glyph.components.isEmpty = true
  · rw [if_pos hg] at h
    injection h with h2
    rw [Prod.mk.injEq] at h2
    obtain ⟨hb, -⟩ := h2
    subst hb
    simp [List.isEmpty_iff.mp hg]
  · rw [if_neg hg] at h
    obtain ⟨pr, hpr, h3⟩ := exbind_ok h
    obtain ⟨b', out⟩ := pr
    injection h3 with h4
    rw [Prod.mk.injEq] at h4
    obtain ⟨hb, -⟩ := h4
    subst hb
    exact flattenGlyphComponents_iff hpr

/-- Witness for C4: flattening a glyph whose only component references a leaf
glyph reports "not modified", matching the right-hand side being false. -/
theorem C4_witness :
    FlattenComponentsFilter.filter gsLeafW 1 ⟨"A", [⟨"L", idT⟩], []⟩ =
      .ok (false, ⟨"A", [⟨"L", idT⟩], []⟩) ∧
    (false = true ↔ ∃ c ∈ (Glyph.mk "A" [⟨"L", idT⟩] []).components,
      _flattenComponent 1 gsLeafW c ≠ .ok [(c.baseGlyph, c.transformation)]) :=
  ⟨by rfl, C4_modified_iff (by rfl)⟩

/-- Provenance of the components produced by the filter loop. -/
theorem flattenGlyphComponents_mem {gs : GlyphSet} {fuel : Nat} :
    ∀ {comps : List Component} {b out},
      flattenGlyphComponents gs fuel comps = .ok (b, out) →
      ∀ c' ∈ out, ∃ comp ∈ comps, ∃ tuples,
        _flattenComponent fuel gs comp = .ok tuples ∧
        ∃ p ∈ tuples, c' = Component.mk p.1 p.2 := by
  intro comps
  induction comps with
  | nil =>
    intro b out h c' hc'
    rw [flattenGlyphComponents] at h
    injection h with h2
    rw [Prod.mk.injEq] at h2
    obtain ⟨-, hout⟩ := h2
    rw [← hout] at hc'
    cases hc'
  | cons c rest ih =>
    intro b out h c' hc'
    rw [flattenGlyphComponents] at h
    obtain ⟨tuples, htup, h2⟩ := exbind_ok h
    obtain ⟨pr, hrest, h3⟩ := exbind_ok h2
    obtain ⟨rc, rcs⟩ := pr
    injection h3 with h4
    rw [Prod.mk.injEq] at h4
    obtain ⟨-, hout⟩ := h4
    rw [← hout] at hc'
    rcases List.mem_append.mp hc' with hmap | hrm
    · obtain ⟨p, hp, hpc⟩ := List.mem_map.mp hmap
      exact ⟨c, List.mem_cons_self _ _, tuples, htup, p, hp, hpc.symm⟩
    · obtain ⟨comp, hcm, tuples', htup', p, hp, hpc⟩ := ih hrest c' hrm
      exact ⟨comp, List.mem_cons_of_mem _ hcm, tuples', htup', p, hp, hpc⟩

/-- Flattening a component list every entry of which references a leaf glyph
changes nothing and reports "not modified". -/
theorem flattenGlyphComponents_leaves {gs : GlyphSet} {fuel : Nat} :
    ∀ {comps : List Component},
      (∀ c ∈ comps, ∃ g, lookupGlyph gs c.baseGlyph = some g ∧ g.components = []) →
      flattenGlyphComponents gs (fuel + 1) comps = .ok (false, comps) := by
  intro comps
  induction comps with
  | nil => intro _; rfl
  | cons c rest ih =>
    intro hall
    obtain ⟨g, hg, hleaf⟩ := hall c (List.mem_cons_self _ _)
    have hc := flattenComponent_leaf fuel hg hleaf
    rw [flattenGlyphComponents, hc, ok_bind,
      ih (fun c' hc' => hall c' (List.mem_cons_of_mem _ hc')), ok_bind]
    simp

/-- C5: if one driver step of the flattening pass succeeds on a glyph (which
encodes that its composite-reference graph was fully resolvable within the
given fuel), running it a second time on the resulting store reports "not
modified" and leaves the store — in particular the glyph's component list —
exactly as after the first run. -/
theorem C5_flatten_idempotent {gs gs1 : GlyphSet} {fuel : Nat} {name : String} {b : Bool}
    (h : flattenGlyphPass gs fuel name = .ok (b, gs1)) :
    flattenGlyphPass gs1 fuel name = .ok (false, gs1) := by
  rw [flattenGlyphPass] at h
  split at h
  next => cases h
  next glyph hl =>
    obtain ⟨pr, hf, h2⟩ := exbind_ok h
    obtain ⟨b', glyph'⟩ := pr
    injection h2 with h3
    rw [Prod.mk.injEq] at h3
    obtain ⟨-, hgs1⟩ := h3
    unfold FlattenComponentsFilter.filter at hf
    by_cases hg : glyph.components.isEmpty = true
    · rw [if_pos hg] at hf
      injection hf with h4
      rw [Prod.mk.injEq] at h4
      obtain ⟨-, hglyph⟩ := h4
      subst hglyph
      have hgseq : gs1 = gs := by rw [← hgs1, setGlyph_self_eq hl]
      rw [hgseq]
      rw [flattenGlyphPass, hl]
      show (FlattenComponentsFilter.filter gs fuel glyph >>= _) = _
      have hfilter2 : FlattenComponentsFilter.filter gs fuel glyph = .ok (false, glyph) := by
        unfold FlattenComponentsFilter.filter
        rw [if_pos hg]
      rw [hfilter2, ok_bind]
      show Except.ok (false, setGlyph gs name glyph) = _
      rw [setGlyph_self_eq hl]
    · rw [if_neg hg] at hf
      obtain ⟨pr2, hcomps, h5⟩ := exbind_ok hf
      obtain ⟨b2, out⟩ := pr2
      injection h5 with h6
      rw [Prod.mk.injEq] at h6
      obtain ⟨-, hglyph'⟩ := h6
      have hleaves : ∀ c' ∈ out, ∃ g', lookupGlyph gs c'.baseGlyph = some g' ∧
          g'.components = [] := by
        intro c' hc'
        obtain ⟨comp, hcm, tuples, htc, p, hp, hcp⟩ := flattenGlyphComponents_mem hcomps c' hc'
        obtain ⟨g', hg', hleaf⟩ := flatten_mem_leaf fuel htc p hp
        subst hcp
        exact ⟨g', hg', hleaf⟩
      cases fuel with
      | zero =>
        exfalso
        cases hcomp0 : glyph.components with
        | nil => rw [hcomp0] at hg; exact hg rfl
        | cons c0 rest0 =>
          rw [hcomp0, flattenGlyphComponents] at hcomps
          cases hcomps
      | succ fuel =>
        subst hglyph'
        have hname : glyph.name = name := lookupGlyph_name hl
        have hl1 : lookupGlyph gs1 name = some { glyph with components := out } := by
          rw [← hgs1]
          exact lookup_setGlyph_self hl hname
        have hleaves1 : ∀ c' ∈ out, ∃ g', lookupGlyph gs1 c'.baseGlyph = some g' ∧
            g'.components = [] := by
          intro c' hc'
          obtain ⟨g', hg', hleaf⟩ := hleaves c' hc'
          by_cases hcn : c'.baseGlyph = name
          · exfalso
            rw [hcn, hl] at hg'
            injection hg' with h7
            rw [← h7] at hleaf
            rw [hleaf] at hg
            exact hg rfl
          · refine ⟨g', ?_, hleaf⟩
            rw [← hgs1,
              lookup_setGlyph_ne
                (show ({ glyph with components := out } : Glyph).name = name from hname) hcn]
            exact hg'
        have hfilter2 : FlattenComponentsFilter.filter gs1 (fuel + 1)
            { glyph with components := out } = .ok (false, { glyph with components := out }) := by
          unfold FlattenComponentsFilter.filter
          by_cases hout : out.isEmpty = true
          · show (if out.isEmpty = true then
                Except.ok (false, ({ glyph with components := out } : Glyph)) else _) = _
            rw [if_pos hout]
          · show (if out.isEmpty = true then
                Except.ok (false, ({ glyph with components := out } : Glyph)) else
                (flattenGlyphComponents gs1 (fuel + 1) out >>=
                  fun x => Except.ok (x.1, { glyph with components := x.2 }))) = _
            rw [if_neg hout, flattenGlyphComponents_leaves hleaves1, ok_bind]
        rw [flattenGlyphPass, hl1]
        show (FlattenComponentsFilter.filter gs1 (fuel + 1) { glyph with components := out } >>= _) = _
        rw [hfilter2, ok_bind]
        show Except.ok (false, setGlyph gs1 name { glyph with components := out }) = _
        rw [setGlyph_self_eq hl1]

/-- Witness for C5: flattening A over the A→B→C store changes A (first run
reports modified), and a second run on the resulting store reports "not
modified" and leaves the store unchanged. -/
theorem C5_witness :
    flattenGlyphPass gsC1 3 "A" =
      .ok (true, [⟨"A", [⟨"C", ⟨2, 0, 0, 2, 5, 0⟩⟩], []⟩,
                  ⟨"B", [⟨"C", tcTranslate⟩], []⟩,
                  ⟨"C", [], []⟩]) ∧
    flattenGlyphPass
      [⟨"A", [⟨"C", ⟨2, 0, 0, 2, 5, 0⟩⟩], []⟩,
       ⟨"B", [⟨"C", tcTranslate⟩], []⟩,
       ⟨"C", [], []⟩] 3 "A" =
      .ok (false, [⟨"A", [⟨"C", ⟨2, 0, 0, 2, 5, 0⟩⟩], []⟩,
                   ⟨"B", [⟨"C", tcTranslate⟩], []⟩,
                   ⟨"C", [], []⟩]) :=
  have h1 : flattenGlyphPass gsC1 3 "A" =
      .ok (true, [⟨"A", [⟨"C", ⟨2, 0, 0, 2, 5, 0⟩⟩], []⟩,
                  ⟨"B", [⟨"C", tcTranslate⟩], []⟩,
                  ⟨"C", [], []⟩]) := by rfl
  ⟨h1, C5_flatten_idempotent h1⟩

/-- If any member of a component list fails to flatten, the whole splice loop
fails with that first-encountered error propagated through the binds. -/
theorem flattenList_error {gs : GlyphSet} {fuel : Nat} {outer : Transform} :
    ∀ {comps : List Component} {c : Component}, c ∈ comps →
      (∃ e, _flattenComponent fuel gs c = .error e) →
      ∃ e, flattenList (_flattenComponent fuel gs) outer comps = .error e := by
  intro comps
  induction comps with
  | nil => intro c hc; cases hc
  | cons c0 rest ih =>
    intro c hc he
    rw [flattenList]
    cases hf : _flattenComponent fuel gs c0 with
    | error e => exact ⟨e, rfl⟩
    | ok sub =>
      rcases List.mem_cons.mp hc with h1 | h1
      · subst h1
        obtain ⟨e, he2⟩ := he
        rw [he2] at hf
        cases hf
      · obtain ⟨e, hrest⟩ := ih h1 he
        refine ⟨e, ?_⟩
        rw [hrest]
        rfl

/-- If a dangling reference is reachable from a component's base glyph, then
`_flattenComponent` fails for every fuel — the lookup error is propagated to
the caller uncaught, with no recovery. -/
theorem flatten_missing_error {gs : GlyphSet} {n : String} (h : ReachesMissing gs n) :
    ∀ (fuel : Nat) (c : Component), c.baseGlyph = n →
      ∃ e, _flattenComponent fuel gs c = .error e := by
  induction h with
  | @here n0 hnone =>
    intro fuel c hc
    cases fuel with
    | zero => exact ⟨.outOfFuel, rfl⟩
    | succ fuel =>
      refine ⟨.missingGlyph c.baseGlyph, ?_⟩
      rw [_flattenComponent, hc, hnone]
  | @step n0 g c0 hlook hmem hreach ih =>
    intro fuel c hc
    cases fuel with
    | zero => exact ⟨.outOfFuel, rfl⟩
    | succ fuel =>
      have hne : g.components.isEmpty = false := by
        cases hgc : g.components with
        | nil => rw [hgc] at hmem; cases hmem
        | cons a b => rfl
      have hstep : _flattenComponent (fuel + 1) gs c =
          flattenList (_flattenComponent fuel gs) c.transformation g.components := by
        rw [_flattenComponent, hc, hlook]
        simp [hne]
      obtain ⟨e, he⟩ := flattenList_error hmem (ih fuel c0 rfl)
      exact ⟨e, by rw [hstep, he]⟩

/-- Every string starts with itself. -/
theorem strStartsWith_self (s : String) : strStartsWith s s = true := by
  simp [strStartsWith, List.isPrefixOf_iff_prefix]

/-- If a string starts with `a ++ s` it starts with `a`. -/
theorem strStartsWith_append {t a s : String} (h : strStartsWith t (a ++ s) = true) :
    strStartsWith t a = true := by
  rw [strStartsWith, List.isPrefixOf_iff_prefix] at h ⊢
  rw [String.data_append] at h
  exact (List.prefix_append a.data s.data).trans h

/-- A string with empty character data is the empty string. -/
theorem eq_empty_of_data_nil {a : String} (h : a.data = []) : a = "" := by
  cases a; simp_all

/-- Appending cannot empty a nonempty string. -/
theorem append_ne_empty {a : String} (s : String) (ha : a ≠ "") : a ++ s ≠ "" := by
  intro h
  apply ha
  apply eq_empty_of_data_nil
  have hd : (a ++ s).data = [] := by rw [h]
  rw [String.data_append] at hd
  exact (List.append_eq_nil.mp hd).1

/-- A nonempty string not starting with `_` keeps that property when a suffix
is appended. -/
theorem strStartsWith_underscore_append {a : String} (s : String) (ha : a ≠ "")
    (h : strStartsWith a underscoreStr = false) :
    strStartsWith (a ++ s) underscoreStr = false := by
  rw [strStartsWith] at h ⊢
  rw [String.data_append]
  have hu : underscoreStr.data = ['_'] := rfl
  rw [hu] at h ⊢
  cases hd : a.data with
  | nil => exact absurd (eq_empty_of_data_nil hd) ha
  | cons c cs =>
    rw [hd] at h
    simp [List.isPrefixOf] at h ⊢
    exact h

/-- `List.contains` on the processed set agrees with membership. -/
theorem mem_of_str_contains {l : List String} {n : String} (h : l.contains n = true) :
    n ∈ l := by
  simpa using h

/-- Membership in the processed set gives `List.contains`. -/
theorem str_contains_of_mem {l : List String} {n : String} (h : n ∈ l) :
    l.contains n = true := by
  simpa using h

/-- `PropInv` is reflexive. -/
theorem PropInv.refl (st : PState) : PropInv st st := by
  refine ⟨fun m hm => hm, fun m _ => rfl, ?_, fun n h => h, ?_⟩
  · intro n g hg
    refine ⟨[], ?_, ?_, ?_⟩
    · rw [List.append_nil]; exact hg
    · intro b hb; cases hb
    · intro _ b hb; cases hb
  · intro m hm hnm
    exact absurd hm hnm

/-- A `PropInv` evolution preserves "all anchor names nonempty". -/
theorem nonempty_preserved {s1 s2 : PState} (h : PropInv s1 s2)
    (hne : NonemptyNames s1.store) : NonemptyNames s2.store := by
  intro n g' hg' a ha
  cases hl : lookupGlyph s1.store n with
  | none => rw [h.noneStable n hl] at hg'; cases hg'
  | some g =>
    obtain ⟨e, hl2, -, hgood⟩ := h.extendsStore n g hl
    rw [hg'] at hl2
    injection hl2 with h2
    have ha2 : a ∈ g.anchors ++ e := by rw [h2] at ha; exact ha
    rcases List.mem_append.mp ha2 with h3 | h3
    · exact hne n g hl a h3
    · exact (hgood hne a h3).1

/-- `PropInv` is transitive. -/
theorem PropInv.trans {s1 s2 s3 : PState} (h12 : PropInv s1 s2) (h23 : PropInv s2 s3) :
    PropInv s1 s3 := by
  refine ⟨?_, ?_, ?_, ?_, ?_⟩
  · exact fun m hm => h23.procMono m (h12.procMono m hm)
  · intro m hm
    rw [h23.procFrozen m (h12.procMono m hm), h12.procFrozen m hm]
  · intro n g hg
    obtain ⟨e1, hl1, hc1, hg1⟩ := h12.extendsStore n g hg
    obtain ⟨e2, hl2, hc2, hg2⟩ := h23.extendsStore n _ hl1
    refine ⟨e1 ++ e2, ?_, ?_, ?_⟩
    · rw [hl2, ← List.append_assoc]
    · intro b hb a ha
      rcases List.mem_append.mp hb with hb1 | hb2
      · exact hc1 b hb1 a ha
      · exact hc2 b hb2 a (List.mem_append.mpr (Or.inl ha))
    · intro hne b hb
      rcases List.mem_append.mp hb with hb1 | hb2
      · exact hg1 hne b hb1
      · exact hg2 (nonempty_preserved h12 hne) b hb2
  · exact fun n h => h23.noneStable n (h12.noneStable n h)
  · intro m hm3 hm1
    by_cases hm2 : m ∈ s2.processed
    · obtain ⟨g, hg, hbases⟩ := h12.closed m hm2 hm1
      obtain ⟨e2, hl2, -, -⟩ := h23.extendsStore m g hg
      refine ⟨_, hl2, ?_⟩
      intro c hc
      exact h23.procMono _ (hbases c hc)
    · exact h23.closed m hm3 hm2

/-- Keys after a dict insert: the inserted key or an old key. -/
theorem dictInsert_mem : ∀ {d : ToAdd} {k : String} {v : Int × Int} {p},
    p ∈ dictInsert d k v → p.1 = k ∨ ∃ q ∈ d, p.1 = q.1 := by
  intro d
  induction d with
  | nil =>
    intro k v p hp
    rw [dictInsert] at hp
    have := List.mem_singleton.mp hp
    subst this
    exact Or.inl rfl
  | cons q0 rest ih =>
    intro k v p hp
    obtain ⟨k0, v0⟩ := q0
    rw [dictInsert] at hp
    by_cases hk : k0 = k
    · rw [if_pos hk] at hp
      rcases List.mem_cons.mp hp with h1 | h1
      · subst h1; exact Or.inl rfl
      · exact Or.inr ⟨p, List.mem_cons_of_mem _ h1, rfl⟩
    · rw [if_neg hk] at hp
      rcases List.mem_cons.mp hp with h1 | h1
      · subst h1; exact Or.inr ⟨(k0, v0), List.mem_cons_self _ _, rfl⟩
      · rcases ih h1 with h2 | ⟨q, hq, h2⟩
        · exact Or.inl h2
        · exact Or.inr ⟨q, List.mem_cons_of_mem _ hq, h2⟩

/-- A positive dict membership test yields a matching key. -/
theorem dictMem_exists {d : ToAdd} {k : String} (h : dictMem d k = true) :
    ∃ q ∈ d, q.1 = k := by
  rw [dictMem, List.any_eq_true] at h
  obtain ⟨q, hq, hqk⟩ := h
  exact ⟨q, hq, by simpa using hqk⟩

/-- Keys after ligature fan-out: old keys, or a pair's anchor name with a
suffix appended. -/
theorem fanOutAnchors_mem : ∀ {pairs : List (Anchor × Component)} {d : ToAdd} {i : Nat} {p},
    p ∈ fanOutAnchors d i pairs →
    (∃ q ∈ d, p.1 = q.1) ∨ ∃ pr ∈ pairs, ∃ s, p.1 = pr.1.name ++ s := by
  intro pairs
  induction pairs with
  | nil =>
    intro d i p hp
    rw [fanOutAnchors] at hp
    exact Or.inl ⟨p, hp, rfl⟩
  | cons pr0 rest ih =>
    intro d i p hp
    obtain ⟨a0, c0⟩ := pr0
    rw [fanOutAnchors] at hp
    rcases ih hp with h1 | ⟨pr, hpr, s, hs⟩
    · obtain ⟨q, hq, hpq⟩ := h1
      rcases dictInsert_mem hq with h2 | ⟨q2, hq2, h3⟩
      · refine Or.inr ⟨(a0, c0), List.mem_cons_self _ _, "_" ++ toString i, ?_⟩
        rw [hpq, h2, String.append_assoc]
      · exact Or.inl ⟨q2, hq2, hpq.trans h3⟩
    · exact Or.inr ⟨pr, List.mem_cons_of_mem _ hpr, s, hs⟩

/-- Every pair collected by `_get_anchor_data`'s scan carries exactly the
anchor name that was searched. -/
theorem collectAnchorPairs_name {gs : GlyphSet} {an : String} :
    ∀ {comps : List Component} {pairs}, collectAnchorPairs gs an comps = .ok pairs →
      ∀ pr ∈ pairs, pr.1.name = an := by
  intro comps
  induction comps with
  | nil =>
    intro pairs h pr hpr
    rw [collectAnchorPairs] at h
    injection h with h2
    subst h2
    cases hpr
  | cons c rest ih =>
    intro pairs h pr hpr
    rw [collectAnchorPairs] at h
    split at h
    next => cases h
    next g hl =>
      obtain ⟨restPairs, hrest, h2⟩ := exbind_ok h
      split at h2
      next a hfind =>
        injection h2 with h3
        subst h3
        rcases List.mem_cons.mp hpr with h4 | h4
        · subst h4
          have := List.find?_some hfind
          simpa using this
        · exact ih hrest pr h4
      next hfind =>
        injection h2 with h3
        subst h3
        exact ih hrest pr hpr

/-- Keys staged by `_get_anchor_data`: old keys, or the candidate anchor name
possibly extended by a ligature suffix. -/
theorem get_anchor_data_keys {d : ToAdd} {gs : GlyphSet} {comps : List Component}
    {an : String} {out : ToAdd} (h : _get_anchor_data d gs comps an = .ok out) :
    ∀ p ∈ out, (∃ q ∈ d, p.1 = q.1) ∨ ∃ s, p.1 = an ++ s := by
  unfold _get_anchor_data at h
  obtain ⟨pairs, hpairs, h2⟩ := exbind_ok h
  have hnames := collectAnchorPairs_name hpairs
  by_cases hlen : 1 < pairs.length
  · rw [if_pos hlen] at h2
    injection h2 with h3
    subst h3
    intro p hp
    rcases fanOutAnchors_mem hp with h4 | ⟨pr, hpr, s, hs⟩
    · exact Or.inl h4
    · exact Or.inr ⟨s, by rw [hs, hnames pr hpr]⟩
  · rw [if_neg hlen] at h2
    split at h2
    next a c =>
      injection h2 with h3
      subst h3
      intro p hp
      rcases dictInsert_mem hp with h4 | ⟨q, hq, h5⟩
      · refine Or.inr ⟨"", ?_⟩
        rw [h4, hnames (a, c) (List.mem_singleton_self _)]
        exact (String.append_empty an).symm
      · exact Or.inl ⟨q, hq, h5⟩
    next =>
      injection h2 with h3
      subst h3
      intro p hp
      exact Or.inl ⟨p, hp, rfl⟩

/-- The mark-adjust inner loop never introduces a new key. -/
theorem adjustAnchorLoop_keys : ∀ {anchors : List Anchor} {d : ToAdd} {t : Transform}
    {allAnchors : List Anchor} {p}, p ∈ adjustAnchorLoop d t allAnchors anchors →
    ∃ q ∈ d, p.1 = q.1 := by
  intro anchors
  induction anchors with
  | nil =>
    intro d t allA p hp
    rw [adjustAnchorLoop] at hp
    exact ⟨p, hp, rfl⟩
  | cons a rest ih =>
    intro d t allA p hp
    rw [adjustAnchorLoop] at hp
    obtain ⟨q, hq, hpq⟩ := ih hp
    by_cases hcond : (dictMem d a.name &&
        allA.any (fun x => x.name == underscoreStr ++ a.name)) = true
    · rw [if_pos hcond] at hq
      rcases dictInsert_mem hq with h1 | ⟨q2, hq2, h2⟩
      · obtain ⟨q3, hq3, h3⟩ := dictMem_exists (Bool.and_eq_true_iff.mp hcond).1
        exact ⟨q3, hq3, by rw [hpq, h1, ← h3]⟩
      · exact ⟨q2, hq2, hpq.trans h2⟩
    · rw [if_neg hcond] at hq
      exact ⟨q, hq, hpq⟩

/-- `_adjust_anchors` never introduces a new key. -/
theorem adjust_anchors_keys {d : ToAdd} {gs : GlyphSet} {c : Component} {out : ToAdd}
    (h : _adjust_anchors d gs c = .ok out) : ∀ p ∈ out, ∃ q ∈ d, p.1 = q.1 := by
  unfold _adjust_anchors at h
  split at h
  next => cases h
  next g hl =>
    injection h with h2
    subst h2
    intro p hp
    exact adjustAnchorLoop_keys hp

/-- The whole mark-component loop never introduces a new key. -/
theorem adjustAll_keys {gs : GlyphSet} : ∀ {ms : List Component} {d out : ToAdd},
    adjustAll gs d ms = .ok out → ∀ p ∈ out, ∃ q ∈ d, p.1 = q.1 := by
  intro ms
  induction ms with
  | nil =>
    intro d out h p hp
    rw [adjustAll] at h
    injection h with h2
    subst h2
    exact ⟨p, hp, rfl⟩
  | cons c rest ih =>
    intro d out h p hp
    rw [adjustAll] at h
    obtain ⟨d1, hd1, h2⟩ := exbind_ok h
    obtain ⟨q1, hq1, hpq1⟩ := ih h2 p hp
    obtain ⟨q2, hq2, hpq2⟩ := adjust_anchors_keys hd1 q1 hq1
    exact ⟨q2, hq2, hpq1.trans hpq2⟩

/-- Keys staged by the candidate-name loop: old keys, or a non-skipped
candidate name possibly extended by a ligature suffix. -/
theorem stageAnchorNames_keys {gs : GlyphSet} {bs : List Component} {ca : List Anchor} :
    ∀ {ans : List String} {d out : ToAdd}, stageAnchorNames gs bs ca d ans = .ok out →
      ∀ p ∈ out, (∃ q ∈ d, p.1 = q.1) ∨
        ∃ an ∈ ans, (ca.any (fun a => strStartsWith a.name an)) = false ∧
          ∃ s, p.1 = an ++ s := by
  intro ans
  induction ans with
  | nil =>
    intro d out h p hp
    rw [stageAnchorNames] at h
    injection h with h2
    subst h2
    exact Or.inl ⟨p, hp, rfl⟩
  | cons an rest ih =>
    intro d out h p hp
    rw [stageAnchorNames] at h
    by_cases hsk : (ca.any (fun a => strStartsWith a.name an)) = true
    · rw [if_pos hsk] at h
      have h2 : stageAnchorNames gs bs ca d rest = .ok out := h
      rcases ih h2 p hp with h3 | ⟨an', hmem, hskip, s, hs⟩
      · exact Or.inl h3
      · exact Or.inr ⟨an', List.mem_cons_of_mem _ hmem, hskip, s, hs⟩
    · rw [if_neg hsk] at h
      obtain ⟨d1, hd1, h2⟩ := exbind_ok h
      rcases ih h2 p hp with h3 | ⟨an', hmem, hskip, s, hs⟩
      · obtain ⟨q, hq, hpq⟩ := h3
        rcases get_anchor_data_keys hd1 q hq with h4 | ⟨s, hs⟩
        · obtain ⟨q2, hq2, h5⟩ := h4
          exact Or.inl ⟨q2, hq2, hpq.trans h5⟩
        · exact Or.inr ⟨an, List.mem_cons_self _ _, Bool.eq_false_iff.mpr hsk, s,
            hpq.trans hs⟩
      · exact Or.inr ⟨an', List.mem_cons_of_mem _ hmem, hskip, s, hs⟩

/-- Inserting into the sorted staging list only rearranges membership. -/
theorem insertSortedAnchor_mem : ∀ {d : ToAdd} {p q : String × (Int × Int)},
    q ∈ insertSortedAnchor p d → q = p ∨ q ∈ d := by
  intro d
  induction d with
  | nil =>
    intro p q hq
    rw [insertSortedAnchor] at hq
    exact Or.inl (List.mem_singleton.mp hq)
  | cons r rest ih =>
    intro p q hq
    rw [insertSortedAnchor] at hq
    by_cases hlt : strLt p.1 r.1 = true
    · rw [if_pos hlt] at hq
      rcases List.mem_cons.mp hq with h1 | h1
      · exact Or.inl h1
      · exact Or.inr h1
    · rw [if_neg hlt] at hq
      rcases List.mem_cons.mp hq with h1 | h1
      · exact Or.inr (h1 ▸ List.mem_cons_self _ _)
      · rcases ih h1 with h2 | h2
        · exact Or.inl h2
        · exact Or.inr (List.mem_cons_of_mem _ h2)

/-- Sorting the staging list only rearranges membership. -/
theorem sortToAdd_mem : ∀ {d : ToAdd} {q}, q ∈ sortToAdd d → q ∈ d := by
  intro d
  induction d with
  | nil =>
    intro q hq
    rw [sortToAdd] at hq
    cases hq
  | cons p rest ih =>
    intro q hq
    rw [sortToAdd] at hq
    rcases insertSortedAnchor_mem hq with h1 | h1
    · exact h1 ▸ List.mem_cons_self _ _
    · exact List.mem_cons_of_mem _ (ih h1)

/-- One name inserted into the collected name set was there or is the new one. -/
theorem insertAnchorName_mem {names : List String} {n an : String}
    (h : an ∈ insertAnchorName names n) : an ∈ names ∨ an = n := by
  rw [insertAnchorName] at h
  by_cases hc : names.contains n = true
  · rw [if_pos hc] at h
    exact Or.inl h
  · rw [if_neg hc] at h
    rcases List.mem_append.mp h with h1 | h1
    · exact Or.inl h1
    · exact Or.inr (List.mem_singleton.mp h1)

/-- Names in the unioned name set come from either side. -/
theorem insertAnchorNames_mem : ∀ {new names : List String} {an : String},
    an ∈ insertAnchorNames names new → an ∈ names ∨ an ∈ new := by
  intro new
  induction new with
  | nil =>
    intro names an h
    rw [insertAnchorNames] at h
    exact Or.inl h
  | cons n rest ih =>
    intro names an h
    rw [insertAnchorNames] at h
    rcases ih h with h1 | h1
    · rcases insertAnchorName_mem h1 with h2 | h2
      · exact Or.inl h2
      · exact Or.inr (h2 ▸ List.mem_cons_self _ _)
    · exact Or.inr (List.mem_cons_of_mem _ h1)

/-- Unfolding of `_propagate_glyph_anchors` at positive fuel for an
unprocessed glyph. -/
theorem propagate_unfold (fuel : Nat) (st : PState) (name : String)
    (hc : st.processed.contains name = false) :
    _propagate_glyph_anchors (fuel + 1) st name =
      (match lookupGlyph st.store name with
       | none => .error (.missingGlyph name)
       | some composite =>
         if composite.components.isEmpty then
           .ok { st with processed := name :: st.processed }
         else do
           let (st2, baseComponents, markComponents, anchorNames) ←
             propagateComponentLoop (_propagate_glyph_anchors fuel)
               { st with processed := name :: st.processed } composite.components [] [] []
           match lookupGlyph st2.store name with
           | none => .error (.missingGlyph name)
           | some composite2 => do
             let anchorData ←
               stageAnchorNames st2.store baseComponents composite2.anchors [] anchorNames
             let anchorData ← adjustAll st2.store anchorData markComponents
             let newAnchors := (sortToAdd anchorData).map (fun p => Anchor.mk p.1 p.2.1 p.2.2)
             .ok { st2 with store := appendAnchors st2.store name newAnchors }) := by
  rw [_propagate_glyph_anchors.eq_def]
  show (if st.processed.contains name = true then Except.ok st else _) = _
  rw [hc, if_neg Bool.false_ne_true]

/-- Invariant of the component loop of `_propagate_glyph_anchors`, given the
invariant of the recursive calls at the inner fuel: the state evolves by
`PropInv`, every listed component's base glyph ends processed, and every
collected anchor name was passed in or is a well-formed base-anchor name. -/
theorem propagateComponentLoop_inv (fuel : Nat)
    (IH : ∀ st name st', _propagate_glyph_anchors fuel st name = .ok st' →
      PropInv st st' ∧ name ∈ st'.processed) :
    ∀ {comps : List Component} {st : PState} {bs ms : List Component} {ans : List String}
      {st' : PState} {bs' ms' : List Component} {ans' : List String},
      propagateComponentLoop (_propagate_glyph_anchors fuel) st comps bs ms ans =
        .ok (st', bs', ms', ans') →
      PropInv st st' ∧ (∀ c ∈ comps, c.baseGlyph ∈ st'.processed) ∧
      (∀ an ∈ ans', an ∈ ans ∨
        (strStartsWith an underscoreStr = false ∧ (NonemptyNames st.store → an ≠ ""))) := by
  intro comps
  induction comps with
  | nil =>
    intro st bs ms ans st' bs' ms' ans' h
    rw [propagateComponentLoop] at h
    injection h with h2
    rw [Prod.mk.injEq, Prod.mk.injEq, Prod.mk.injEq] at h2
    obtain ⟨hst, -, -, hans⟩ := h2
    subst hst
    subst hans
    exact ⟨PropInv.refl st, fun c hc => absurd hc (List.not_mem_nil c),
      fun an ha => Or.inl ha⟩
  | cons c rest ih =>
    intro st bs ms ans st' bs' ms' ans' h
    rw [propagateComponentLoop] at h
    split at h
    next => cases h
    next g0 hl0 =>
      obtain ⟨stA, hA, h2⟩ := exbind_ok h
      obtain ⟨hPA, hmemA⟩ := IH st c.baseGlyph stA hA
      split at h2
      next => cases h2
      next glyph hlA =>
        by_cases hmark :
            (glyph.anchors.any (fun a => strStartsWith a.name underscoreStr)) = true
        · rw [if_pos hmark] at h2
          obtain ⟨hPB, hrest, hans2⟩ := ih h2
          refine ⟨hPA.trans hPB, ?_, ?_⟩
          · intro c' hc'
            rcases List.mem_cons.mp hc' with h3 | h3
            · subst h3; exact hPB.procMono _ hmemA
            · exact hrest c' h3
          · intro an han
            rcases hans2 an han with h3 | ⟨h4, h5⟩
            · exact Or.inl h3
            · exact Or.inr ⟨h4, fun hne => h5 (nonempty_preserved hPA hne)⟩
        · rw [if_neg hmark] at h2
          obtain ⟨hPB, hrest, hans2⟩ := ih h2
          refine ⟨hPA.trans hPB, ?_, ?_⟩
          · intro c' hc'
            rcases List.mem_cons.mp hc' with h3 | h3
            · subst h3; exact hPB.procMono _ hmemA
            · exact hrest c' h3
          · intro an han
            rcases hans2 an han with h3 | ⟨h4, h5⟩
            · rcases insertAnchorNames_mem h3 with h6 | h6
              · exact Or.inl h6
              · obtain ⟨a, ha, han2⟩ := List.mem_map.mp h6
                refine Or.inr ⟨?_, ?_⟩
                · subst han2
                  have hfalse : ∀ a' ∈ glyph.anchors,
                      strStartsWith a'.name underscoreStr = false := by
                    intro a' ha'
                    refine Bool.eq_false_iff.mpr fun htrue => hmark ?_
                    exact List.any_eq_true.mpr ⟨a', ha', htrue⟩
                  exact hfalse a ha
                · intro hne
                  subst han2
                  exact nonempty_preserved hPA hne c.baseGlyph glyph hlA a ha
            · exact Or.inr ⟨h4, fun hne => h5 (nonempty_preserved hPA hne)⟩

/-- A false `List.any` is false at every member. -/
theorem any_eq_false_mem {α : Type} {l : List α} {p : α → Bool} (h : l.any p = false)
    {a : α} (ha : a ∈ l) : p a = false := by
  refine Bool.eq_false_iff.mpr fun htrue => ?_
  have h2 := List.any_eq_true.mpr ⟨a, ha, htrue⟩
  rw [h] at h2
  cases h2

/-- Main invariant of `_propagate_glyph_anchors`: a successful run relates the
states by `PropInv` and records the glyph as processed. -/
theorem propagate_inv : ∀ (fuel : Nat) (st : PState) (name : String) (st' : PState),
    _propagate_glyph_anchors fuel st name = .ok st' →
    PropInv st st' ∧ name ∈ st'.processed := by
  intro fuel
  induction fuel with
  | zero =>
    intro st name st' h
    have heq : _propagate_glyph_anchors 0 st name =
        (if st.processed.contains name = true then (Except.ok st : Except FilterErr PState)
         else .error .outOfFuel) := by
      rw [_propagate_glyph_anchors.eq_def]
    rw [heq] at h
    by_cases hc : st.processed.contains name = true
    · rw [if_pos hc] at h
      injection h with h2
      subst h2
      exact ⟨PropInv.refl st, mem_of_str_contains hc⟩
    · rw [if_neg hc] at h
      cases h
  | succ fuel ihf =>
    intro st name st' h
    by_cases hc : st.processed.contains name = true
    · have heq : _propagate_glyph_anchors (fuel + 1) st name = .ok st := by
        rw [_propagate_glyph_anchors.eq_def]
        show (if st.processed.contains name = true then Except.ok st else _) = _
        rw [if_pos hc]
      rw [heq] at h
      injection h with h2
      subst h2
      exact ⟨PropInv.refl st, mem_of_str_contains hc⟩
    · have hcf : st.processed.contains name = false := Bool.eq_false_iff.mpr hc
      have hnotmem : name ∉ st.processed := fun hm => hc (str_contains_of_mem hm)
      rw [propagate_unfold fuel st name hcf] at h
      split at h
      next => cases h
      next composite hlook =>
        by_cases hemp : composite.components.isEmpty = true
        · rw [if_pos hemp] at h
          injection h with h2
          subst h2
          refine ⟨⟨fun m hm => List.mem_cons_of_mem _ hm, fun m _ => rfl, ?_,
            fun n hn => hn, ?_⟩, List.mem_cons_self _ _⟩
          · intro n g hg
            refine ⟨[], ?_, ?_, ?_⟩
            · rw [List.append_nil]; exact hg
            · intro b hb; cases hb
            · intro _ b hb; cases hb
          · intro m hm hnm
            rcases List.mem_cons.mp hm with h3 | h3
            · subst h3
              refine ⟨composite, hlook, ?_⟩
              intro c hcmem
              rw [List.isEmpty_iff.mp hemp] at hcmem
              cases hcmem
            · exact absurd h3 hnm
        · rw [if_neg hemp] at h
          obtain ⟨quad, hloop, h2⟩ := exbind_ok h
          obtain ⟨st2, bComps, mComps, aNames⟩ := quad
          obtain ⟨hPL, hbases, hansP⟩ :=
            propagateComponentLoop_inv fuel (fun s n s' hh => ihf s n s' hh) hloop
          have h2' : (match lookupGlyph st2.store name with
            | none => (Except.error (FilterErr.missingGlyph name) : Except FilterErr PState)
            | some composite2 => do
              let anchorData ← stageAnchorNames st2.store bComps composite2.anchors [] aNames
              let anchorData ← adjustAll st2.store anchorData mComps
              let newAnchors : List Anchor :=
                (sortToAdd anchorData).map
                  (fun (p : String × (Int × Int)) => Anchor.mk p.1 p.2.1 p.2.2)
              Except.ok { st2 with store := appendAnchors st2.store name newAnchors }) =
              .ok st' := h2
          clear h2
          split at h2'
          next => cases h2'
          next composite2 hlook2 =>
            obtain ⟨d1, hstage, h3⟩ := exbind_ok h2'
            obtain ⟨d2, hadj, h4⟩ := exbind_ok h3
            injection h4 with h5
            have hname_mem1 :
                name ∈ ({ st with processed := name :: st.processed } : PState).processed :=
              List.mem_cons_self _ _
            have hfrozen : lookupGlyph st2.store name = lookupGlyph st.store name :=
              hPL.procFrozen name hname_mem1
            have hcomp2 : composite2 = composite := by
              rw [hfrozen, hlook] at hlook2
              exact (Option.some.inj hlook2).symm
            have hkeys : ∀ b ∈ (sortToAdd d2).map (fun p => Anchor.mk p.1 p.2.1 p.2.2),
                ∃ an s, (composite.anchors.any (fun a => strStartsWith a.name an)) = false ∧
                  strStartsWith an underscoreStr = false ∧
                  (NonemptyNames st.store → an ≠ "") ∧ b.name = an ++ s := by
              intro b hb
              obtain ⟨p, hp, hbp⟩ := List.mem_map.mp hb
              have hp2 := sortToAdd_mem hp
              obtain ⟨q1, hq1, hpq1⟩ := adjustAll_keys hadj p hp2
              rcases stageAnchorNames_keys hstage q1 hq1 with h6 | ⟨an, hanmem, hskip, s, hs⟩
              · obtain ⟨q2, hq2, -⟩ := h6
                cases hq2
              · rcases hansP an hanmem with h7 | ⟨hund, hnemp⟩
                · cases h7
                · refine ⟨an, s, ?_, hund, hnemp, ?_⟩
                  · rw [← hcomp2]
                    exact hskip
                  · rw [← hbp]
                    exact hpq1.trans hs
            subst h5
            constructor
            constructor
            · exact fun m hm => hPL.procMono m (List.mem_cons_of_mem _ hm)
            · intro m hm
              have hmn : m ≠ name := fun he => hnotmem (he ▸ hm)
              show lookupGlyph (appendAnchors st2.store name _) m = _
              rw [lookup_appendAnchors_ne _ hmn]
              exact hPL.procFrozen m (List.mem_cons_of_mem _ hm)
            · intro n g hg
              by_cases hn : n = name
              · subst hn
                have hgc : g = composite := by
                  rw [hg] at hlook
                  exact Option.some.inj hlook
                subst hgc
                refine ⟨(sortToAdd d2).map (fun p => Anchor.mk p.1 p.2.1 p.2.2), ?_, ?_, ?_⟩
                · show lookupGlyph (appendAnchors st2.store n _) n = _
                  have hl2 : lookupGlyph st2.store n = some g := by rw [hfrozen]; exact hg
                  exact lookup_appendAnchors_self _ hl2
                · intro b hb a ha
                  obtain ⟨an, s, hskipF, hund, hnemp, hbn⟩ := hkeys b hb
                  refine Bool.eq_false_iff.mpr fun htrue => ?_
                  rw [hbn] at htrue
                  have h8 := strStartsWith_append htrue
                  have h9 := any_eq_false_mem hskipF ha
                  rw [h9] at h8
                  cases h8
                · intro hne b hb
                  obtain ⟨an, s, hskipF, hund, hnemp, hbn⟩ := hkeys b hb
                  rw [hbn]
                  exact ⟨append_ne_empty s (hnemp hne),
                    strStartsWith_underscore_append s (hnemp hne) hund⟩
              · obtain ⟨e1, hl2, hc1, hg1⟩ := hPL.extendsStore n g hg
                refine ⟨e1, ?_, hc1, hg1⟩
                show lookupGlyph (appendAnchors st2.store name _) n = _
                rw [lookup_appendAnchors_ne _ hn]
                exact hl2
            · intro n hn
              show lookupGlyph (appendAnchors st2.store name _) n = none
              exact lookup_appendAnchors_none _ (hPL.noneStable n hn)
            · intro m hm hnm
              by_cases hmn : m = name
              · subst hmn
                have hl2 : lookupGlyph st2.store m = some composite := by
                  rw [hfrozen]; exact hlook
                refine ⟨_, lookup_appendAnchors_self _ hl2, ?_⟩
                intro c hcm
                exact hbases c hcm
              · have hm1 : m ∉ ({ st with processed := name :: st.processed } : PState).processed := by
                  intro hmem
                  rcases List.mem_cons.mp hmem with h3 | h3
                  · exact hmn h3
                  · exact hnm h3
                obtain ⟨g, hgl, hb⟩ := hPL.closed m hm hm1
                refine ⟨g, ?_, hb⟩
                show lookupGlyph (appendAnchors st2.store name _) m = _
                rw [lookup_appendAnchors_ne _ hmn]
                exact hgl
            · exact hPL.procMono name hname_mem1

/-- C7: for every glyph of the store, a successful propagation run only ever
appends anchors after its pre-existing ones, and no pre-existing anchor's name
starts with (in particular equals) an appended anchor's name — so a candidate
anchor name that the glyph already defines exactly or as a prefix
(e.g. an existing `top` or `top_1` for candidate `top`) is never
auto-propagated, never overwritten and never duplicated. -/
theorem C7_no_overwrite {fuel : Nat} {st st' : PState} {name n : String} {g : Glyph}
    (h : _propagate_glyph_anchors fuel st name = .ok st')
    (hg : lookupGlyph st.store n = some g) :
    ∃ extra, lookupGlyph st'.store n = some ⟨g.name, g.components, g.anchors ++ extra⟩ ∧
      ∀ b ∈ extra, ∀ a ∈ g.anchors,
        strStartsWith a.name b.name = false ∧ a.name ≠ b.name := by
  obtain ⟨hPI, -⟩ := propagate_inv fuel st name st' h
  obtain ⟨extra, hl, hcf, -⟩ := hPI.extendsStore n g hg
  refine ⟨extra, hl, ?_⟩
  intro b hb a ha
  have h1 := hcf b hb a ha
  refine ⟨h1, fun he => ?_⟩
  rw [he, strStartsWith_self] at h1
  cases h1

/-- Witness for C7: the composite that already defines `top` receives nothing
when its base component's glyph also defines `top`. -/
theorem C7_witness :
    ∃ extra, lookupGlyph (PState.mk gsC7W ["X", "G"]).store "G" =
      some ⟨"G", [⟨"X", idT⟩], [⟨"top", 9, 9⟩] ++ extra⟩ ∧
      ∀ b ∈ extra, ∀ a ∈ ([⟨"top", 9, 9⟩] : List Anchor),
        strStartsWith a.name b.name = false ∧ a.name ≠ b.name :=
  have h : _propagate_glyph_anchors 2 ⟨gsC7W, []⟩ "G" = .ok ⟨gsC7W, ["X", "G"]⟩ := by rfl
  have hg : lookupGlyph gsC7W "G" = some ⟨"G", [⟨"X", idT⟩], [⟨"top", 9, 9⟩]⟩ := by rfl
  C7_no_overwrite h hg

/-- A listwise nonempty-name hypothesis gives the lookup-based one. -/
theorem nonemptyNames_of_forall {gs : GlyphSet}
    (h : ∀ g ∈ gs, ∀ a ∈ g.anchors, a.name ≠ "") : NonemptyNames gs :=
  fun _ g hg a ha => h g (lookupGlyph_mem hg) a ha

/-- C10 (amended): provided every anchor in the store has a nonempty name, a
successful propagation run never appends an anchor whose name begins with `_`:
candidates come only from base components, whose glyphs have no `_`-prefixed
anchors, and with nonempty candidate names neither ligature suffixing nor mark
adjustment introduces a leading underscore. -/
theorem C10_amended {fuel : Nat} {st st' : PState} {name n : String} {g : Glyph}
    (h : _propagate_glyph_anchors fuel st name = .ok st')
    (hne : NonemptyNames st.store)
    (hg : lookupGlyph st.store n = some g) :
    ∃ extra, lookupGlyph st'.store n = some ⟨g.name, g.components, g.anchors ++ extra⟩ ∧
      ∀ b ∈ extra, strStartsWith b.name underscoreStr = false := by
  obtain ⟨hPI, -⟩ := propagate_inv fuel st name st' h
  obtain ⟨extra, hl, -, hgood⟩ := hPI.extendsStore n g hg
  exact ⟨extra, hl, fun b hb => (hgood hne b hb).2⟩

/-- Witness for C10 (amended): a ligature fan-out over nonempty anchor names
appends `top_1`, `top_2`, neither of which begins with `_`. -/
theorem C10_witness :
    ∃ extra, lookupGlyph
        (PState.mk
          [⟨"X1", [], [⟨"top", 1, 2⟩]⟩,
           ⟨"X2", [], [⟨"top", 3, 4⟩]⟩,
           ⟨"G", [⟨"X1", idT⟩, ⟨"X2", idT⟩],
             [⟨"top_1", 1, 2⟩, ⟨"top_2", 3, 4⟩]⟩]
          ["X2", "X1", "G"]).store "G" =
      some ⟨"G", [⟨"X1", idT⟩, ⟨"X2", idT⟩], [] ++ extra⟩ ∧
      ∀ b ∈ extra, strStartsWith b.name underscoreStr = false :=
  have h : _propagate_glyph_anchors 2 ⟨gsC3 idT idT 1 2 3 4, []⟩ "G" =
      .ok ⟨[⟨"X1", [], [⟨"top", 1, 2⟩]⟩,
            ⟨"X2", [], [⟨"top", 3, 4⟩]⟩,
            ⟨"G", [⟨"X1", idT⟩, ⟨"X2", idT⟩],
              [⟨"top_1", 1, 2⟩, ⟨"top_2", 3, 4⟩]⟩],
           ["X2", "X1", "G"]⟩ := by rfl
  have hne : NonemptyNames (gsC3 idT idT 1 2 3 4) :=
    nonemptyNames_of_forall (by decide)
  have hg : lookupGlyph (gsC3 idT idT 1 2 3 4) "G" =
      some ⟨"G", [⟨"X1", idT⟩, ⟨"X2", idT⟩], []⟩ := by rfl
  C10_amended h hne hg

/-- No glyph reaching a dangling reference is ever successfully processed. -/
theorem reaches_missing_not_processed {gs : GlyphSet} {st' : PState}
    (hPI : PropInv ⟨gs, []⟩ st') :
    ∀ {m : String}, ReachesMissing gs m → m ∉ st'.processed := by
  intro m h
  induction h with
  | @here n0 hnone =>
    intro hmem
    obtain ⟨g, hgl, -⟩ := hPI.closed n0 hmem (List.not_mem_nil n0)
    rw [hPI.noneStable n0 hnone] at hgl
    cases hgl
  | @step n0 g c hlook hcm hreach ih =>
    intro hmem
    obtain ⟨g', hgl, hb⟩ := hPI.closed n0 hmem (List.not_mem_nil n0)
    obtain ⟨e, hl2, -, -⟩ := hPI.extendsStore n0 g hlook
    rw [hl2] at hgl
    injection hgl with h2
    have hcomp : g'.components = g.components := by rw [← h2]
    exact ih (hb c (by rw [hcomp]; exact hcm))

/-- A fresh propagation run on a glyph from which a dangling reference is
reachable fails for every fuel. -/
theorem propagate_missing_error {gs : GlyphSet} {name : String}
    (h : ReachesMissing gs name) (fuel : Nat) :
    ∃ e, _propagate_glyph_anchors fuel ⟨gs, []⟩ name = .error e := by
  cases hres : _propagate_glyph_anchors fuel ⟨gs, []⟩ name with
  | error e => exact ⟨e, rfl⟩
  | ok st' =>
    obtain ⟨hPI, hmem⟩ := propagate_inv fuel ⟨gs, []⟩ name st' hres
    exact absurd hmem (reaches_missing_not_processed hPI h)

/-- C8: if a dangling base-glyph reference is reachable from the processed
glyph (transitively through its components), both flatten and propagateAnchors
fail — the error propagates to the caller uncaught, with no retry and no
recovery; and a component directly referencing an absent glyph fails with
precisely the store's lookup error. -/
theorem C8_missing_fatal {gs : GlyphSet} {name : String} {comp : Component}
    (h1 : ReachesMissing gs comp.baseGlyph) (h2 : ReachesMissing gs name)
    (fuel fuel2 fuel3 : Nat) {comp2 : Component}
    (h3 : lookupGlyph gs comp2.baseGlyph = none) :
    (∃ e, _flattenComponent fuel gs comp = .error e) ∧
    (∃ e, _propagate_glyph_anchors fuel2 ⟨gs, []⟩ name = .error e) ∧
    _flattenComponent (fuel3 + 1) gs comp2 = .error (.missingGlyph comp2.baseGlyph) := by
  refine ⟨flatten_missing_error h1 fuel comp rfl, propagate_missing_error h2 fuel2, ?_⟩
  rw [_flattenComponent, h3]

/-- Witness for C8: the store whose only glyph A references the absent B. -/
theorem C8_witness :
    (∃ e, _flattenComponent 5 gsC8W ⟨"A", idT⟩ = .error e) ∧
    (∃ e, _propagate_glyph_anchors 5 ⟨gsC8W, []⟩ "A" = .error e) ∧
    _flattenComponent (4 + 1) gsC8W ⟨"B", idT⟩ = .error (.missingGlyph "B") :=
  have hrm : ReachesMissing gsC8W "A" :=
    ReachesMissing.step (by rfl) (List.mem_cons_self _ _) (ReachesMissing.here (by rfl))
  C8_missing_fatal hrm hrm 5 5 4 (by rfl)

/-- C9: the two passes' frame conditions. A flattening step changes only the
processed glyph's component list — every other glyph's lookup is untouched,
and even the processed glyph keeps its name and anchors; a propagation step
leaves every glyph's name and component list unchanged and only appends
anchors; neither pass deletes a glyph (absent names stay absent, and the
processed glyph stays present). -/
theorem C9_frame {gs : GlyphSet} {fuel : Nat} {name : String} {b : Bool} {gs' : GlyphSet}
    {fuel2 : Nat} {st st' : PState} {name2 : String}
    (hf : flattenGlyphPass gs fuel name = .ok (b, gs'))
    (hp : _propagate_glyph_anchors fuel2 st name2 = .ok st') :
    ((∀ n, n ≠ name → lookupGlyph gs' n = lookupGlyph gs n) ∧
     (∀ g, lookupGlyph gs name = some g → ∃ g', lookupGlyph gs' name = some g' ∧
        g'.name = g.name ∧ g'.anchors = g.anchors) ∧
     (∀ n, lookupGlyph gs n = none → lookupGlyph gs' n = none)) ∧
    ((∀ n g, lookupGlyph st.store n = some g → ∃ extra,
        lookupGlyph st'.store n = some ⟨g.name, g.components, g.anchors ++ extra⟩) ∧
     (∀ n, lookupGlyph st.store n = none → lookupGlyph st'.store n = none)) := by
  constructor
  · rw [flattenGlyphPass] at hf
    split at hf
    next => cases hf
    next glyph hl =>
      obtain ⟨pr, hff, h2⟩ := exbind_ok hf
      obtain ⟨b', glyph'⟩ := pr
      injection h2 with h3
      rw [Prod.mk.injEq] at h3
      obtain ⟨-, hgs'⟩ := h3
      have hname : glyph.name = name := lookupGlyph_name hl
      have hpres : glyph'.name = glyph.name ∧ glyph'.anchors = glyph.anchors := by
        unfold FlattenComponentsFilter.filter at hff
        by_cases hg : glyph.components.isEmpty = true
        · rw [if_pos hg] at hff
          injection hff with h4
          rw [Prod.mk.injEq] at h4
          obtain ⟨-, h5⟩ := h4
          rw [← h5]
          exact ⟨rfl, rfl⟩
        · rw [if_neg hg] at hff
          obtain ⟨pr2, -, h5⟩ := exbind_ok hff
          obtain ⟨b2, out⟩ := pr2
          injection h5 with h6
          rw [Prod.mk.injEq] at h6
          obtain ⟨-, h7⟩ := h6
          rw [← h7]
          exact ⟨rfl, rfl⟩
      have hname' : glyph'.name = name := hpres.1.trans hname
      refine ⟨?_, ?_, ?_⟩
      · intro n hn
        rw [← hgs', lookup_setGlyph_ne hname' hn]
      · intro g hg
        have hgg : g = glyph := by
          rw [hg] at hl
          exact Option.some.inj hl
        subst hgg
        exact ⟨glyph', by rw [← hgs']; exact lookup_setGlyph_self hg hname',
          hpres.1.trans (lookupGlyph_name hg) |>.trans (lookupGlyph_name hg).symm, hpres.2⟩
      · intro n hn
        have hne : n ≠ name := by
          intro he
          rw [he, hl] at hn
          cases hn
        rw [← hgs', lookup_setGlyph_ne hname' hne]
        exact hn
  · obtain ⟨hPI, -⟩ := propagate_inv fuel2 st name2 st' hp
    refine ⟨?_, hPI.noneStable⟩
    intro n g hg
    obtain ⟨extra, hl, -, -⟩ := hPI.extendsStore n g hg
    exact ⟨extra, hl⟩

/-- Witness for C9: a concrete flattening step and a concrete propagation
step, instantiating both frame conditions. -/
theorem C9_witness :
    ((∀ n, n ≠ "A" →
        lookupGlyph [⟨"A", [⟨"C", ⟨2, 0, 0, 2, 5, 0⟩⟩], []⟩,
                     ⟨"B", [⟨"C", tcTranslate⟩], []⟩,
                     ⟨"C", [], []⟩] n = lookupGlyph gsC1 n) ∧
     (∀ g, lookupGlyph gsC1 "A" = some g →
        ∃ g', lookupGlyph [⟨"A", [⟨"C", ⟨2, 0, 0, 2, 5, 0⟩⟩], []⟩,
                           ⟨"B", [⟨"C", tcTranslate⟩], []⟩,
                           ⟨"C", [], []⟩] "A" = some g' ∧
          g'.name = g.name ∧ g'.anchors = g.anchors) ∧
     (∀ n, lookupGlyph gsC1 n = none →
        lookupGlyph [⟨"A", [⟨"C", ⟨2, 0, 0, 2, 5, 0⟩⟩], []⟩,
                     ⟨"B", [⟨"C", tcTranslate⟩], []⟩,
                     ⟨"C", [], []⟩] n = none)) ∧
    ((∀ n g, lookupGlyph gsC7W n = some g → ∃ extra,
        lookupGlyph (PState.mk gsC7W ["X", "G"]).store n =
          some ⟨g.name, g.components, g.anchors ++ extra⟩) ∧
     (∀ n, lookupGlyph gsC7W n = none →
        lookupGlyph (PState.mk gsC7W ["X", "G"]).store n = none)) :=
  have hf : flattenGlyphPass gsC1 3 "A" =
      .ok (true, [⟨"A", [⟨"C", ⟨2, 0, 0, 2, 5, 0⟩⟩], []⟩,
                  ⟨"B", [⟨"C", tcTranslate⟩], []⟩,
                  ⟨"C", [], []⟩]) := by rfl
  have hp : _propagate_glyph_anchors 2 ⟨gsC7W, []⟩ "G" = .ok ⟨gsC7W, ["X", "G"]⟩ := by rfl
  C9_frame hf hp
